import Mathlib

/-!
Verification of the stock/price reconciliation pipeline of the seller-apis
repository (seller.py for the Ozon marketplace, market.py for Yandex Market).

Strings coming from the spreadsheet rows and from the marketplace APIs are
modelled as Lean `String`s; character-level processing (the price normalizer)
works on `List Char` via `String.toList`.  Python operations that can raise
are modelled with `Option` (`none` = the call raises).
-/

/-- A local stock row (`watch`), as produced by the spreadsheet parse: the
fields read by the code are `Код` (product code), `Количество` (quantity
indicator, a free-form string) and `Цена` (price string). -/
structure Watch where
  kod : String
  kolichestvo : String
  tsena : String
deriving DecidableEq

/-- Accumulator loop for the digit run of Python `int`. -/
def parseDigitsAux : List Char → Nat → Option Nat
  | [], acc => some acc
  | c :: cs, acc =>
    if c.isDigit then parseDigitsAux cs (10 * acc + (c.toNat - 48)) else none

/-- A non-empty all-digit run parsed to its value; `int("")` raises. -/
def parseDigits : List Char → Option Nat
  | [] => none
  | cs => parseDigitsAux cs 0

/-- Strip the surrounding spaces that Python `int` tolerates. -/
def stripSpaces (cs : List Char) : List Char :=
  ((cs.dropWhile (· = ' ')).reverse.dropWhile (· = ' ')).reverse

/-- Python `int(s)` on a string: optional surrounding spaces, an optional
sign, then decimal digits; anything else raises `ValueError` (`none`). -/
def pyInt (s : String) : Option Int :=
  match stripSpaces s.toList with
  | '-' :: rest => (parseDigits rest).map (fun n => -(n : Int))
  | '+' :: rest => (parseDigits rest).map (fun n => (n : Int))
  | rest => (parseDigits rest).map (fun n => (n : Int))

/-- The quantity bucketing rule shared by `seller.create_stocks` and
`market.create_stocks`: indicator `">10"` gives 100, `"1"` gives 0, anything
else is handed to Python `int`. -/
def resolveStock (count : String) : Option Int :=
  if count = ">10" then some 100
  else if count = "1" then some 0
  else pyInt count

/-- The matching loop shared by both `create_stocks` variants: walk the local
rows; when a row's code is in the current offer-id list, resolve its quantity,
record the pair and remove the code from the list (Python `list.remove`
drops the first occurrence, as `List.erase` does).  Returns the emitted
(code, quantity) pairs in order together with the final offer-id list. -/
def reconLoop : List Watch → List String → Option (List (String × Int) × List String)
  | [], offer_ids => some ([], offer_ids)
  | w :: ws, offer_ids =>
    if w.kod ∈ offer_ids then
      match resolveStock w.kolichestvo with
      | none => none
      | some q =>
          (reconLoop ws (offer_ids.erase w.kod)).map
            (fun pr => ((w.kod, q) :: pr.1, pr.2))
    else reconLoop ws offer_ids

/-- Python `str.split` on a one-character separator. -/
def pySplit (sep : Char) : List Char → List (List Char)
  | [] => [[]]
  | c :: cs =>
    if c = sep then [] :: pySplit sep cs
    else
      match pySplit sep cs with
      | [] => [[c]]
      | h :: t => (c :: h) :: t

namespace Seller

/-- `seller.price_conversion`: `re.sub("[^0-9]", "", price.split(".")[0])` —
keep the chunk before the first `.`, then keep only ASCII digits. -/
def price_conversion (price : String) : String :=
  String.mk (((pySplit '.' price.toList).headD []).filter Char.isDigit)

/-- The Python calling convention for `price_conversion`: a `None` argument
raises `AttributeError` on `.split` (modelled `none`); a string argument
returns normally. -/
def price_conversion_null : Option String → Option String
  | none => none
  | some p => some (price_conversion p)

/-- Chunking for a positive step: chunk size is `n + 1`.  Embeds the loop
`for i in range(0, len(lst), step): yield lst[i : i + step]` for `step ≥ 1`,
using `lst[i : i + step] = (lst.drop i).take step` and stepping the drop. -/
def slicesPos (n : Nat) : List α → List (List α)
  | [] => []
  | x :: xs => (x :: xs).take (n + 1) :: slicesPos n ((x :: xs).drop (n + 1))
termination_by l => l.length
decreasing_by simp; omega

/-- `seller.divide`: Python `range(0, len(lst), n)` raises `ValueError` when
`n = 0` (the error surfaces when the generator is consumed, and every call
site consumes it with `list(...)`); for `n < 0` the range is empty, so the
generator silently yields nothing; for `n > 0` it yields the slices. -/
def divide (lst : List α) (n : Int) : Option (List (List α)) :=
  if n = 0 then none
  else if n < 0 then some []
  else some (slicesPos (n.toNat - 1) lst)

/-- A stock record built by `seller.create_stocks`:
`{"offer_id": ..., "stock": ...}`. -/
structure StockRecord where
  offer_id : String
  stock : Int
deriving DecidableEq

/-- `seller.create_stocks`: run the matching loop, then zero-fill every
offer id still left in the (mutated) list.  The returned pair is
(the stock list, the final state of the mutated `offer_ids` list). -/
def create_stocks (watch_remnants : List Watch) (offer_ids : List String) :
    Option (List StockRecord × List String) :=
  (reconLoop watch_remnants offer_ids).map fun pr =>
    (pr.1.map (fun p => ⟨p.1, p.2⟩) ++ pr.2.map (fun id => ⟨id, 0⟩), pr.2)

/-- A price record built by `seller.create_prices`. -/
structure PriceRecord where
  auto_action_enabled : String
  currency_code : String
  offer_id : String
  old_price : String
  price : String
deriving DecidableEq

/-- The record literal of `seller.create_prices`. -/
def mkPriceRecord (w : Watch) : PriceRecord :=
  { auto_action_enabled := "UNKNOWN"
    currency_code := "RUB"
    offer_id := w.kod
    old_price := "0"
    price := price_conversion w.tsena }

/-- `seller.create_prices`: emit one record per local row whose code is in
the offer-id list; no removal, no zero-fill. -/
def create_prices : List Watch → List String → List PriceRecord
  | [], _ => []
  | w :: ws, offer_ids =>
    if w.kod ∈ offer_ids then mkPriceRecord w :: create_prices ws offer_ids
    else create_prices ws offer_ids

/-- An Ozon product entry: the loop only reads its `offer_id`. -/
structure Product where
  offer_id : String
deriving DecidableEq

/-- One response of Ozon `POST /v2/product/list` (its `result` object),
restricted to the fields the loop reads. -/
structure OzonPage where
  items : List Product
  total : Nat
  last_id : String

/-- One iteration of the `seller.get_offer_ids` loop on the state
(token to send next, accumulated product list). -/
def pageStep (srv : String → OzonPage) (s : String × List Product) : String × List Product :=
  ((srv s.1).last_id, s.2 ++ (srv s.1).items)

/-- Iterate `pageStep` from a state. -/
def pageIter (srv : String → OzonPage) : String × List Product → Nat → String × List Product
  | s, 0 => s
  | s, k + 1 => pageIter srv (pageStep srv s) k

/-- The loop's break condition at a state: the reported `total` equals the
accumulated item count after extending with this response's items. -/
def stopsAt (srv : String → OzonPage) (s : String × List Product) : Prop :=
  (srv s.1).total = (s.2 ++ (srv s.1).items).length

instance (srv : String → OzonPage) (s : String × List Product) :
    Decidable (stopsAt srv s) := by
  unfold stopsAt
  infer_instance

/-- The `while True` loop of `seller.get_offer_ids`, fuelled: `none` means
the loop did not break within `fuel` responses. -/
def offerLoop (srv : String → OzonPage) : Nat → String → List Product → Option (List Product)
  | 0, _, _ => none
  | fuel + 1, last_id, acc =>
    let p := srv last_id
    let acc2 := acc ++ p.items
    if p.total = acc2.length then some acc2
    else offerLoop srv fuel p.last_id acc2

/-- `seller.get_offer_ids`: run the loop from the empty token and empty
accumulator, then extract each product's `offer_id` in order. -/
def get_offer_ids (srv : String → OzonPage) (fuel : Nat) : Option (List String) :=
  (offerLoop srv fuel "" []).map (List.map Product.offer_id)

/-- `seller.upload_stocks`, given the offer-id list obtained from
`get_offer_ids` (the HTTP submission calls do not affect the returned
value): builds the stock list and pairs the nonzero-stock sublist with it. -/
def upload_stocks (watch_remnants : List Watch) (offer_ids : List String) :
    Option (List StockRecord × List StockRecord) :=
  (create_stocks watch_remnants offer_ids).map fun pr =>
    (pr.1.filter (fun r => r.stock ≠ 0), pr.1)

end Seller

namespace Market

/-- One element of the `items` list of a Yandex stock record. -/
structure MarketItem where
  count : Int
  type : String
  updatedAt : String
deriving DecidableEq

/-- A stock record built by `market.create_stocks`. -/
structure StockRecord where
  sku : String
  warehouseId : String
  items : List MarketItem
deriving DecidableEq

/-- The record literal of `market.create_stocks` (both the matched and the
zero-fill branches build this shape). -/
def mkStockRecord (warehouse_id date : String) (kod : String) (stock : Int) : StockRecord :=
  { sku := kod
    warehouseId := warehouse_id
    items := [{ count := stock, type := "FIT", updatedAt := date }] }

/-- `market.create_stocks`: same matching loop and zero-fill as the seller
variant, with the Yandex record shape; `date` abstracts the `updatedAt`
timestamp computed once at entry. -/
def create_stocks (watch_remnants : List Watch) (offer_ids : List String)
    (warehouse_id date : String) : Option (List StockRecord × List String) :=
  (reconLoop watch_remnants offer_ids).map fun pr =>
    (pr.1.map (fun p => mkStockRecord warehouse_id date p.1 p.2)
      ++ pr.2.map (fun id => mkStockRecord warehouse_id date id 0), pr.2)

/-- The `price` object of a Yandex price record. -/
structure PriceVal where
  value : Int
  currencyId : String
deriving DecidableEq

/-- A price record built by `market.create_prices`. -/
structure PriceRecord where
  id : String
  price : PriceVal
deriving DecidableEq

/-- `market.create_prices`: like the seller variant, but the normalized price
runs through `int(...)`, which raises when it contains no digit. -/
def create_prices : List Watch → List String → Option (List PriceRecord)
  | [], _ => some []
  | w :: ws, offer_ids =>
    if w.kod ∈ offer_ids then
      match pyInt (Seller.price_conversion w.tsena) with
      | none => none
      | some v =>
          (create_prices ws offer_ids).map
            (fun ps => { id := w.kod, price := { value := v, currencyId := "RUR" } } :: ps)
    else create_prices ws offer_ids

/-- A Yandex offer-mapping entry: the loop only reads `offer.shopSku`,
flattened here to one field. -/
structure Entry where
  shopSku : String
deriving DecidableEq

/-- One response of `GET .../offer-mapping-entries` (its `result` object),
restricted to the fields the loop reads; `nextPageToken` is `none` when the
`paging` object carries no next token. -/
structure MarketPage where
  offerMappingEntries : List Entry
  nextPageToken : Option String

/-- One iteration of the `market.get_offer_ids` loop on the state
(token to send next, accumulated entry list); when the loop continues, the
next token is the response's `nextPageToken`. -/
def pageStep (srv : String → MarketPage) (s : String × List Entry) : String × List Entry :=
  (((srv s.1).nextPageToken).getD "", s.2 ++ (srv s.1).offerMappingEntries)

/-- Iterate `pageStep` from a state. -/
def pageIter (srv : String → MarketPage) : String × List Entry → Nat → String × List Entry
  | s, 0 => s
  | s, k + 1 => pageIter srv (pageStep srv s) k

/-- The loop's break condition at a state: `if not page: break` — the next
page token is absent or the empty string. -/
def stopsAt (srv : String → MarketPage) (s : String × List Entry) : Prop :=
  (srv s.1).nextPageToken = none ∨ (srv s.1).nextPageToken = some ""

instance (srv : String → MarketPage) (s : String × List Entry) :
    Decidable (stopsAt srv s) := by
  unfold stopsAt
  infer_instance

/-- The `while True` loop of `market.get_offer_ids`, fuelled. -/
def offerLoop (srv : String → MarketPage) : Nat → String → List Entry → Option (List Entry)
  | 0, _, _ => none
  | fuel + 1, page, acc =>
    let p := srv page
    let acc2 := acc ++ p.offerMappingEntries
    match p.nextPageToken with
    | none => some acc2
    | some tk => if tk = "" then some acc2 else offerLoop srv fuel tk acc2

/-- `market.get_offer_ids`: run the loop from the empty token, then extract
each entry's `shopSku` in order. -/
def get_offer_ids (srv : String → MarketPage) (fuel : Nat) : Option (List String) :=
  (offerLoop srv fuel "" []).map (List.map Entry.shopSku)

/-- `market.upload_stocks`, given the offer-id list obtained from
`get_offer_ids`: builds the stock list and pairs with it the sublist whose
first item has nonzero count (`stock.get("items")[0].get("count") != 0`). -/
def upload_stocks (watch_remnants : List Watch) (offer_ids : List String)
    (warehouse_id date : String) : Option (List StockRecord × List StockRecord) :=
  (create_stocks watch_remnants offer_ids warehouse_id date).map fun pr =>
    (pr.1.filter (fun r => (r.items.headD ⟨0, "", ""⟩).count ≠ 0), pr.1)

end Market

/-! ## Helper lemmas -/

theorem pySplit_ne_nil (sep : Char) : ∀ cs : List Char, pySplit sep cs ≠ []
  | [] => by simp [pySplit]
  | c :: cs => by
    rw [pySplit]
    by_cases h : c = sep
    · simp [h]
    · rw [if_neg h]
      cases hp : pySplit sep cs with
      | nil => simp
      | cons hd tl => simp

theorem pySplit_headD (sep : Char) :
    ∀ cs : List Char, (pySplit sep cs).headD [] = cs.takeWhile (fun c => c ≠ sep)
  | [] => by simp [pySplit]
  | c :: cs => by
    rw [pySplit]
    by_cases h : c = sep
    · subst h
      simp [List.takeWhile_cons]
    · rw [if_neg h]
      cases hp : pySplit sep cs with
      | nil => exact absurd hp (pySplit_ne_nil sep cs)
      | cons hd tl =>
        have ih := pySplit_headD sep cs
        rw [hp] at ih
        simp only [List.headD_cons] at ih
        simp only [ne_eq, decide_not] at ih
        simp [List.takeWhile_cons, h, ← ih]

/-- The prefix of the input before the first `.`, with only digits kept. -/
theorem price_conversion_eq_takeWhile (p : String) :
    Seller.price_conversion p =
      String.mk ((p.toList.takeWhile (fun c => c ≠ '.')).filter Char.isDigit) := by
  unfold Seller.price_conversion
  rw [pySplit_headD]

/-! ## Claims -/

/-- Claim C3: for every price string, `price_conversion` returns exactly the
ASCII-digit characters of the prefix of the input preceding the first `'.'`
(the whole input when no dot is present — `takeWhile` then keeps everything),
with all non-digit characters removed; in particular `"5'990.00 руб."`
(apostrophe written via `Char.ofNat 39`) yields `"5990"` and `"12.50"`
yields `"12"`. -/
theorem claim_C3_price_normalizer :
    (∀ p : String, Seller.price_conversion p =
      String.mk ((p.toList.takeWhile (fun c => c ≠ '.')).filter Char.isDigit)) ∧
    Seller.price_conversion
      (String.mk ("5".toList ++ [Char.ofNat 39] ++ "990.00 руб.".toList)) = "5990" ∧
    Seller.price_conversion "12.50" = "12" :=
  ⟨price_conversion_eq_takeWhile, by decide, by decide⟩

/-- Claim C4 counterexample: on the empty input and on a non-numeric input,
`price_conversion` returns normally with the empty string — it does not
signal a malformed-input error. -/
theorem claim_C4_counterexample :
    Seller.price_conversion_null (some "") = some "" ∧
    Seller.price_conversion_null (some "abc") = some "" := by
  constructor <;> decide

/-- Claim C4 (amended): `price_conversion` applied to an empty or non-numeric
(digit-free) string input returns the empty string without signalling any
error; only on null input does it propagate a failure (`AttributeError`). -/
theorem claim_C4_amended :
    Seller.price_conversion_null none = none ∧
    Seller.price_conversion_null (some "") = some "" ∧
    (∀ p : String, (∀ c ∈ p.toList, c.isDigit = false) →
      Seller.price_conversion_null (some p) = some "") := by
  refine ⟨rfl, by decide, ?_⟩
  intro p hp
  show some (Seller.price_conversion p) = some ""
  rw [price_conversion_eq_takeWhile]
  have hnil : (p.toList.takeWhile (fun c => c ≠ '.')).filter Char.isDigit = [] := by
    apply List.filter_eq_nil_iff.mpr
    intro c hc
    have hmem : c ∈ p.toList := (List.takeWhile_sublist _).subset hc
    simp [hp c hmem]
  rw [hnil]

/-- Witness for the amended Claim C4, at the non-numeric input `"abc"`. -/
theorem claim_C4_amended_witness :
    (∀ c ∈ "abc".toList, c.isDigit = false) ∧
    Seller.price_conversion_null (some "abc") = some "" :=
  ⟨by decide, claim_C4_amended.2.2 "abc" (by decide)⟩

theorem slicesPos_flatten (n : Nat) : ∀ l : List α, (Seller.slicesPos n l).flatten = l
  | [] => by simp [Seller.slicesPos]
  | x :: xs => by
    rw [Seller.slicesPos, List.flatten_cons]
    rw [slicesPos_flatten n ((x :: xs).drop (n + 1))]
    exact List.take_append_drop (n + 1) (x :: xs)
termination_by l => l.length
decreasing_by simp; omega

theorem slicesPos_length_le (n : Nat) :
    ∀ l : List α, ∀ c ∈ Seller.slicesPos n l, c.length ≤ n + 1
  | [] => by simp [Seller.slicesPos]
  | x :: xs => by
    intro c hc
    rw [Seller.slicesPos] at hc
    rcases List.mem_cons.mp hc with h | h
    · subst h
      simp [List.length_take]
    · exact slicesPos_length_le n ((x :: xs).drop (n + 1)) c h
termination_by l => l.length
decreasing_by simp; omega

theorem slicesPos_dropLast (n : Nat) :
    ∀ l : List α, ∀ c ∈ (Seller.slicesPos n l).dropLast, c.length = n + 1
  | [] => by simp [Seller.slicesPos]
  | x :: xs => by
    intro c hc
    rw [Seller.slicesPos] at hc
    by_cases hrest : Seller.slicesPos n ((x :: xs).drop (n + 1)) = []
    · rw [hrest] at hc
      simp at hc
    · rw [List.dropLast_cons_of_ne_nil hrest] at hc
      rcases List.mem_cons.mp hc with h | h
      · subst h
        have hd : (x :: xs).drop (n + 1) ≠ [] := by
          intro h0
          rw [h0] at hrest
          simp [Seller.slicesPos] at hrest
        have hlen : ¬ (x :: xs).length ≤ n + 1 := mt List.drop_eq_nil_iff.mpr hd
        simp only [List.length_cons] at hlen
        simp [List.length_take]
        omega
      · exact slicesPos_dropLast n ((x :: xs).drop (n + 1)) c h
termination_by l => l.length
decreasing_by simp; omega

/-- Claim C5: for every non-empty list and positive chunk size `n`, `divide`
returns chunks that concatenate back to the input (same elements, same
order, covering it exactly once), each chunk has length at most `n`, and
every chunk except possibly the last has length exactly `n`. -/
theorem claim_C5_divide_chunks (α : Type) (l : List α) (n : Int)
    (hne : l ≠ []) (hn : 0 < n) :
    ∃ cs, Seller.divide l n = some cs ∧ cs.flatten = l ∧
      (∀ c ∈ cs, (c.length : Int) ≤ n) ∧
      (∀ c ∈ cs.dropLast, (c.length : Int) = n) := by
  refine ⟨Seller.slicesPos (n.toNat - 1) l, ?_, ?_, ?_, ?_⟩
  · unfold Seller.divide
    rw [if_neg (by omega), if_neg (by omega)]
  · exact slicesPos_flatten _ l
  · intro c hc
    have h := slicesPos_length_le (n.toNat - 1) l c hc
    omega
  · intro c hc
    have h := slicesPos_dropLast (n.toNat - 1) l c hc
    omega

/-- Witness for Claim C5, at the list `[1, 2, 3]` with chunk size 2. -/
theorem claim_C5_divide_chunks_witness :
    ([1, 2, 3] : List Nat) ≠ [] ∧ (0 : Int) < 2 ∧
    (∃ cs, Seller.divide ([1, 2, 3] : List Nat) 2 = some cs ∧ cs.flatten = [1, 2, 3] ∧
      (∀ c ∈ cs, (c.length : Int) ≤ 2) ∧
      (∀ c ∈ cs.dropLast, (c.length : Int) = 2)) :=
  ⟨by decide, by decide, claim_C5_divide_chunks Nat [1, 2, 3] 2 (by decide) (by decide)⟩

/-- Claim C6 counterexample: chunk size `-1 ≤ 0`, yet `divide` does not
signal an error — it silently returns the empty sequence of chunks. -/
theorem claim_C6_counterexample :
    (-1 : Int) ≤ 0 ∧ Seller.divide ([1, 2, 3] : List Nat) (-1) = some [] := by
  constructor <;> decide

/-- Claim C6 (amended): chunk size 0 is an error (`range` raises
`ValueError` when the generator is consumed), while a negative chunk size
silently produces an empty sequence of chunks (the underlying `range` is
empty, so no error is ever raised). -/
theorem claim_C6_amended (α : Type) (l : List α) (n : Int) :
    Seller.divide l 0 = none ∧ (n < 0 → Seller.divide l n = some []) := by
  constructor
  · unfold Seller.divide
    rw [if_pos rfl]
  · intro h
    unfold Seller.divide
    rw [if_neg (by omega), if_pos h]

/-- Witness for the amended Claim C6, at the list `[4, 5]` and `n = -3`. -/
theorem claim_C6_amended_witness :
    Seller.divide ([4, 5] : List Nat) 0 = none ∧ (-3 : Int) < 0 ∧
    Seller.divide ([4, 5] : List Nat) (-3) = some [] :=
  ⟨(claim_C6_amended Nat [4, 5] (-3)).1, by decide,
    (claim_C6_amended Nat [4, 5] (-3)).2 (by decide)⟩

/-- Claim C2: for a local row whose code is in the remote offer-id
collection, the quantity `create_stocks` resolves is given by `resolveStock`:
100 for indicator `">10"`, 0 for indicator `"1"`, and otherwise the value of
parsing the indicator as an integer (so `"7"` resolves to 7). -/
theorem claim_C2_quantity_rule :
    resolveStock ">10" = some 100 ∧
    resolveStock "1" = some 0 ∧
    (∀ ind : String, ind ≠ ">10" → ind ≠ "1" → resolveStock ind = pyInt ind) ∧
    pyInt "7" = some 7 ∧
    (∀ (w : Watch) (R : List String), w.kod ∈ R →
      Seller.create_stocks [w] R =
        (resolveStock w.kolichestvo).map (fun q =>
          ((⟨w.kod, q⟩ : Seller.StockRecord) ::
             (R.erase w.kod).map (fun id => ⟨id, 0⟩),
           R.erase w.kod))) := by
  refine ⟨by decide, by decide, ?_, by decide, ?_⟩
  · intro ind h1 h2
    unfold resolveStock
    rw [if_neg h1, if_neg h2]
  · intro w R hmem
    unfold Seller.create_stocks
    rw [reconLoop, if_pos hmem]
    cases hq : resolveStock w.kolichestvo with
    | none => rfl
    | some q => rfl

/-- Witness for Claim C2, at indicator `"7"` on a matched row. -/
theorem claim_C2_quantity_rule_witness :
    (⟨"123", "7", ""⟩ : Watch).kod ∈ ["123"] ∧
    Seller.create_stocks [⟨"123", "7", ""⟩] ["123"] = some ([⟨"123", 7⟩], []) :=
  ⟨by decide, by
    have h := claim_C2_quantity_rule.2.2.2.2 ⟨"123", "7", ""⟩ ["123"] (by decide)
    exact h.trans (by decide)⟩

theorem seller_create_prices_eq (L : List Watch) (R : List String) :
    Seller.create_prices L R =
      (L.filter (fun w => w.kod ∈ R)).map Seller.mkPriceRecord := by
  induction L with
  | nil => rfl
  | cons w ws ih =>
    rw [Seller.create_prices]
    by_cases h : w.kod ∈ R
    · simp [h, List.filter_cons, ih]
    · simp [h, List.filter_cons, ih]

theorem market_create_prices_shape :
    ∀ (L : List Watch) (R : List String) (ps : List Market.PriceRecord),
      Market.create_prices L R = some ps →
      ps.map Market.PriceRecord.id = (L.filter (fun w => w.kod ∈ R)).map Watch.kod ∧
      ∀ r ∈ ps, ∃ w ∈ L, r.id = w.kod ∧
        pyInt (Seller.price_conversion w.tsena) = some r.price.value := by
  intro L
  induction L with
  | nil =>
    intro R ps h
    rw [Market.create_prices] at h
    obtain rfl : ([] : List Market.PriceRecord) = ps := Option.some.inj h
    exact ⟨rfl, by simp⟩
  | cons w ws ih =>
    intro R ps h
    rw [Market.create_prices] at h
    by_cases hm : w.kod ∈ R
    · rw [if_pos hm] at h
      cases hpy : pyInt (Seller.price_conversion w.tsena) with
      | none => rw [hpy] at h; cases h
      | some v =>
        rw [hpy] at h
        cases hrec : Market.create_prices ws R with
        | none => rw [hrec] at h; cases h
        | some ps' =>
          rw [hrec] at h
          obtain rfl : ({ id := w.kod, price := { value := v, currencyId := "RUR" } } :: ps' : List Market.PriceRecord) = ps := Option.some.inj h
          obtain ⟨ih1, ih2⟩ := ih R ps' hrec
          constructor
          · simp [List.filter_cons, hm, ih1]
          · intro r hr
            rcases List.mem_cons.mp hr with rfl | hr'
            · exact ⟨w, List.mem_cons_self w ws, rfl, hpy⟩
            · obtain ⟨w', hw', h1, h2⟩ := ih2 r hr'
              exact ⟨w', List.mem_cons_of_mem w hw', h1, h2⟩
    · rw [if_neg hm] at h
      obtain ⟨ih1, ih2⟩ := ih R ps h
      constructor
      · simp [List.filter_cons, hm, ih1]
      · intro r hr
        obtain ⟨w', hw', h1, h2⟩ := ih2 r hr
        exact ⟨w', List.mem_cons_of_mem w hw', h1, h2⟩

/-- Claim C7: `create_prices` emits exactly one price record (with the
normalized price) per local row whose code is in the remote id list, in row
order; rows whose code is not in the list are omitted and unmatched remote
ids get no zero-price fallback (records only arise from rows).  In the
Yandex variant each emitted record's value is the normalized price parsed as
an integer.  Concretely, rows with codes "A" and "B" against remote ids
`["A"]` yield exactly the one record for "A". -/
theorem claim_C7_price_records :
    (∀ (L : List Watch) (R : List String),
      Seller.create_prices L R =
        (L.filter (fun w => w.kod ∈ R)).map Seller.mkPriceRecord) ∧
    Seller.create_prices [⟨"A", "", "100.00"⟩, ⟨"B", "", "200.00"⟩] ["A"] =
      [Seller.mkPriceRecord ⟨"A", "", "100.00"⟩] ∧
    (∀ (L : List Watch) (R : List String) (ps : List Market.PriceRecord),
      Market.create_prices L R = some ps →
      ps.map Market.PriceRecord.id = (L.filter (fun w => w.kod ∈ R)).map Watch.kod ∧
      ∀ r ∈ ps, ∃ w ∈ L, r.id = w.kod ∧
        pyInt (Seller.price_conversion w.tsena) = some r.price.value) :=
  ⟨seller_create_prices_eq, by decide, market_create_prices_shape⟩

/-- Witness for Claim C7, at one matched and one unmatched row. -/
theorem claim_C7_price_records_witness :
    Market.create_prices [⟨"A", "", "100.00"⟩, ⟨"B", "", "200.00"⟩] ["A"] =
      some [⟨"A", ⟨100, "RUR"⟩⟩] ∧
    ([⟨"A", ⟨100, "RUR"⟩⟩] : List Market.PriceRecord).map Market.PriceRecord.id =
      (([⟨"A", "", "100.00"⟩, ⟨"B", "", "200.00"⟩] : List Watch).filter
        (fun w => w.kod ∈ ["A"])).map Watch.kod :=
  ⟨by decide, (claim_C7_price_records.2.2
      [⟨"A", "", "100.00"⟩, ⟨"B", "", "200.00"⟩] ["A"]
      [⟨"A", ⟨100, "RUR"⟩⟩] (by decide)).1⟩

theorem reconLoop_perm :
    ∀ (L : List Watch) (ids : List String) (ps : List (String × Int)) (rem : List String),
      reconLoop L ids = some (ps, rem) → (ps.map Prod.fst ++ rem).Perm ids := by
  intro L
  induction L with
  | nil =>
    intro ids ps rem h
    rw [reconLoop] at h
    obtain ⟨h1, h2⟩ := (Prod.mk.injEq ..).mp (Option.some.inj h)
    subst h1
    subst h2
    simp
  | cons w ws ih =>
    intro ids ps rem h
    rw [reconLoop] at h
    by_cases hm : w.kod ∈ ids
    · rw [if_pos hm] at h
      cases hq : resolveStock w.kolichestvo with
      | none => rw [hq] at h; cases h
      | some q =>
        rw [hq] at h
        cases hrec : reconLoop ws (ids.erase w.kod) with
        | none => rw [hrec] at h; cases h
        | some pr =>
          rw [hrec] at h
          obtain ⟨ps2, rem2⟩ := pr
          simp only [Option.map_some] at h
          obtain ⟨h1, h2⟩ := (Prod.mk.injEq ..).mp (Option.some.inj h)
          subst h1
          subst h2
          have hperm := ih (ids.erase w.kod) ps2 rem2 hrec
          have heq : ((w.kod, q) :: ps2).map Prod.fst ++ rem2
              = w.kod :: (ps2.map Prod.fst ++ rem2) := by simp
          rw [heq]
          exact (List.Perm.cons w.kod hperm).trans (List.perm_cons_erase hm).symm
    · rw [if_neg hm] at h
      exact ih ids ps rem h

theorem reconLoop_sources :
    ∀ (L : List Watch) (ids : List String) (ps : List (String × Int)) (rem : List String),
      reconLoop L ids = some (ps, rem) →
      ∀ p ∈ ps, ∃ w ∈ L, w.kod = p.1 ∧ resolveStock w.kolichestvo = some p.2 := by
  intro L
  induction L with
  | nil =>
    intro ids ps rem h
    rw [reconLoop] at h
    obtain ⟨h1, h2⟩ := (Prod.mk.injEq ..).mp (Option.some.inj h)
    subst h1
    simp
  | cons w ws ih =>
    intro ids ps rem h
    rw [reconLoop] at h
    by_cases hm : w.kod ∈ ids
    · rw [if_pos hm] at h
      cases hq : resolveStock w.kolichestvo with
      | none => rw [hq] at h; cases h
      | some q =>
        rw [hq] at h
        cases hrec : reconLoop ws (ids.erase w.kod) with
        | none => rw [hrec] at h; cases h
        | some pr =>
          rw [hrec] at h
          obtain ⟨ps2, rem2⟩ := pr
          simp only [Option.map_some] at h
          obtain ⟨h1, h2⟩ := (Prod.mk.injEq ..).mp (Option.some.inj h)
          subst h1
          intro p hp
          rcases List.mem_cons.mp hp with rfl | hp'
          · exact ⟨w, List.mem_cons_self w ws, rfl, hq⟩
          · obtain ⟨w', hw', hk, hr⟩ := ih (ids.erase w.kod) ps2 rem2 hrec p hp'
            exact ⟨w', List.mem_cons_of_mem w hw', hk, hr⟩
    · rw [if_neg hm] at h
      intro p hp
      obtain ⟨w', hw', hk, hr⟩ := ih ids ps rem h p hp
      exact ⟨w', List.mem_cons_of_mem w hw', hk, hr⟩

theorem reconLoop_rem_filter :
    ∀ (L : List Watch) (ids : List String), ids.Nodup →
      ∀ (ps : List (String × Int)) (rem : List String),
        reconLoop L ids = some (ps, rem) →
        rem = ids.filter (fun id => id ∉ L.map Watch.kod) := by
  intro L
  induction L with
  | nil =>
    intro ids _ ps rem h
    rw [reconLoop] at h
    obtain ⟨h1, h2⟩ := (Prod.mk.injEq ..).mp (Option.some.inj h)
    subst h2
    simp
  | cons w ws ih =>
    intro ids hnd ps rem h
    rw [reconLoop] at h
    by_cases hm : w.kod ∈ ids
    · rw [if_pos hm] at h
      cases hq : resolveStock w.kolichestvo with
      | none => rw [hq] at h; cases h
      | some q =>
        rw [hq] at h
        cases hrec : reconLoop ws (ids.erase w.kod) with
        | none => rw [hrec] at h; cases h
        | some pr =>
          rw [hrec] at h
          obtain ⟨ps2, rem2⟩ := pr
          simp only [Option.map_some] at h
          obtain ⟨h1, h2⟩ := (Prod.mk.injEq ..).mp (Option.some.inj h)
          subst h2
          have hrem2 := ih (ids.erase w.kod) (hnd.erase w.kod) ps2 rem2 hrec
          rw [hrem2, List.Nodup.erase_eq_filter hnd, List.filter_filter]
          apply List.filter_congr
          intro id _
          simp only [List.map_cons, List.mem_cons, not_or, ne_eq]
          cases hid : decide (id = w.kod) with
          | false =>
            simp only [decide_eq_false_iff_not] at hid
            simp [hid]
          | true =>
            simp only [decide_eq_true_eq] at hid
            simp [hid]
    · rw [if_neg hm] at h
      have hrem := ih ids hnd ps rem h
      rw [hrem]
      apply List.filter_congr
      intro id hid
      have hne2 : id ≠ w.kod := by
        intro hcontra
        exact hm (hcontra ▸ hid)
      simp [List.mem_cons, hne2]

/-- Claim C1 counterexample: with a duplicated remote offer id the output
stock list carries that id twice — `create_stocks [] ["A", "A"]` zero-fills
both copies, so "exactly one record per id in R (no id twice)" fails. -/
theorem claim_C1_counterexample :
    Seller.create_stocks [] ["A", "A"] =
      some ([⟨"A", 0⟩, ⟨"A", 0⟩], ["A", "A"]) ∧
    ¬ (([⟨"A", 0⟩, ⟨"A", 0⟩] : List Seller.StockRecord).map
        Seller.StockRecord.offer_id).Nodup := by
  constructor <;> decide

theorem seller_stock_ids (ps : List (String × Int)) (rem : List String) :
    ((ps.map (fun p => (⟨p.1, p.2⟩ : Seller.StockRecord))
        ++ rem.map (fun id => (⟨id, 0⟩ : Seller.StockRecord))).map
      Seller.StockRecord.offer_id) = ps.map Prod.fst ++ rem := by
  have h1 : (ps.map (fun p => (⟨p.1, p.2⟩ : Seller.StockRecord))).map
      Seller.StockRecord.offer_id = ps.map Prod.fst := by
    induction ps with
    | nil => rfl
    | cons p ps ih => simp [ih]
  have h2 : (rem.map (fun i => (⟨i, 0⟩ : Seller.StockRecord))).map
      Seller.StockRecord.offer_id = rem := by
    induction rem with
    | nil => rfl
    | cons i rem ih => simp [ih]
  rw [List.map_append, h1, h2]

theorem market_stock_ids (wh date : String) (ps : List (String × Int)) (rem : List String) :
    ((ps.map (fun p => Market.mkStockRecord wh date p.1 p.2)
        ++ rem.map (fun id => Market.mkStockRecord wh date id 0)).map
      Market.StockRecord.sku) = ps.map Prod.fst ++ rem := by
  have h1 : (ps.map (fun p => Market.mkStockRecord wh date p.1 p.2)).map
      Market.StockRecord.sku = ps.map Prod.fst := by
    induction ps with
    | nil => rfl
    | cons p ps ih =>
        simp only [List.map_cons, ih]
        rfl
  have h2 : (rem.map (fun i => Market.mkStockRecord wh date i 0)).map
      Market.StockRecord.sku = rem := by
    induction rem with
    | nil => rfl
    | cons i rem ih =>
        simp only [List.map_cons, ih]
        rfl
  rw [List.map_append, h1, h2]

/-- Claim C1 (amended): for every DUPLICATE-FREE list of remote offer ids R
and local rows L, whenever `create_stocks` returns, its stock list contains
exactly one record per id of R — no id twice, no id outside R — where every
record either stems from a row of L matching its id (with the resolved
quantity) or zero-fills an id matched by no row's code, and every id of R
matched by no row's code appears with quantity 0.  Rows whose code is not in
R contribute nothing (every record's id is in R).  Both marketplace variants
satisfy this. -/
theorem claim_C1_amended :
    (∀ (L : List Watch) (R : List String) (s : List Seller.StockRecord) (rem : List String),
      R.Nodup → Seller.create_stocks L R = some (s, rem) →
      (s.map Seller.StockRecord.offer_id).Perm R ∧
      (s.map Seller.StockRecord.offer_id).Nodup ∧
      (∀ r ∈ s, (∃ w ∈ L, w.kod = r.offer_id ∧ resolveStock w.kolichestvo = some r.stock)
        ∨ (r.offer_id ∉ L.map Watch.kod ∧ r.stock = 0)) ∧
      (∀ id ∈ R, id ∉ L.map Watch.kod → (⟨id, 0⟩ : Seller.StockRecord) ∈ s)) ∧
    (∀ (L : List Watch) (R : List String) (wh date : String)
        (s : List Market.StockRecord) (rem : List String),
      R.Nodup → Market.create_stocks L R wh date = some (s, rem) →
      (s.map Market.StockRecord.sku).Perm R ∧
      (s.map Market.StockRecord.sku).Nodup ∧
      (∀ r ∈ s, (∃ w ∈ L, ∃ q, w.kod = r.sku ∧ resolveStock w.kolichestvo = some q ∧
          r = Market.mkStockRecord wh date r.sku q)
        ∨ (r.sku ∉ L.map Watch.kod ∧ r = Market.mkStockRecord wh date r.sku 0)) ∧
      (∀ id ∈ R, id ∉ L.map Watch.kod → Market.mkStockRecord wh date id 0 ∈ s)) := by
  constructor
  · intro L R s rem hnd h
    unfold Seller.create_stocks at h
    rw [Option.map_eq_some'] at h
    obtain ⟨⟨ps, rem0⟩, hrec, hmk⟩ := h
    obtain ⟨hs, hrem⟩ := (Prod.mk.injEq ..).mp hmk
    subst hs
    have hids := seller_stock_ids ps rem0
    have hperm : ((ps.map (fun p => (⟨p.1, p.2⟩ : Seller.StockRecord))
        ++ rem0.map (fun id => (⟨id, 0⟩ : Seller.StockRecord))).map
          Seller.StockRecord.offer_id).Perm R := by
      rw [hids]
      exact reconLoop_perm L R ps rem0 hrec
    have hfil := reconLoop_rem_filter L R hnd ps rem0 hrec
    refine ⟨hperm, hperm.nodup_iff.mpr hnd, ?_, ?_⟩
    · intro r hr
      rcases List.mem_append.mp hr with hr1 | hr2
      · obtain ⟨p, hp, rfl⟩ := List.mem_map.mp hr1
        obtain ⟨w, hw, hk, hq⟩ := reconLoop_sources L R ps rem0 hrec p hp
        exact Or.inl ⟨w, hw, hk, hq⟩
      · obtain ⟨id, hid, rfl⟩ := List.mem_map.mp hr2
        rw [hfil] at hid
        have := List.of_mem_filter hid
        simp only [decide_eq_true_eq] at this
        exact Or.inr ⟨this, rfl⟩
    · intro id hidR hnm
      apply List.mem_append_right
      apply List.mem_map.mpr
      refine ⟨id, ?_, rfl⟩
      rw [hfil]
      exact List.mem_filter.mpr ⟨hidR, by simp [hnm]⟩
  · intro L R wh date s rem hnd h
    unfold Market.create_stocks at h
    rw [Option.map_eq_some'] at h
    obtain ⟨⟨ps, rem0⟩, hrec, hmk⟩ := h
    obtain ⟨hs, hrem⟩ := (Prod.mk.injEq ..).mp hmk
    subst hs
    have hids := market_stock_ids wh date ps rem0
    have hperm : ((ps.map (fun p => Market.mkStockRecord wh date p.1 p.2)
        ++ rem0.map (fun id => Market.mkStockRecord wh date id 0)).map
          Market.StockRecord.sku).Perm R := by
      rw [hids]
      exact reconLoop_perm L R ps rem0 hrec
    have hfil := reconLoop_rem_filter L R hnd ps rem0 hrec
    refine ⟨hperm, hperm.nodup_iff.mpr hnd, ?_, ?_⟩
    · intro r hr
      rcases List.mem_append.mp hr with hr1 | hr2
      · obtain ⟨p, hp, rfl⟩ := List.mem_map.mp hr1
        obtain ⟨w, hw, hk, hq⟩ := reconLoop_sources L R ps rem0 hrec p hp
        exact Or.inl ⟨w, hw, p.2, hk, hq, rfl⟩
      · obtain ⟨id, hid, rfl⟩ := List.mem_map.mp hr2
        rw [hfil] at hid
        have := List.of_mem_filter hid
        simp only [decide_eq_true_eq] at this
        exact Or.inr ⟨this, rfl⟩
    · intro id hidR hnm
      apply List.mem_append_right
      apply List.mem_map.mpr
      refine ⟨id, ?_, rfl⟩
      rw [hfil]
      exact List.mem_filter.mpr ⟨hidR, by simp [hnm]⟩

/-- Witness for the amended Claim C1: one matched and one unmatched remote
id. -/
theorem claim_C1_amended_witness :
    (["X", "Y"] : List String).Nodup ∧
    Seller.create_stocks [⟨"X", ">10", ""⟩] ["X", "Y"] =
      some ([⟨"X", 100⟩, ⟨"Y", 0⟩], ["Y"]) ∧
    (([⟨"X", 100⟩, ⟨"Y", 0⟩] : List Seller.StockRecord).map
      Seller.StockRecord.offer_id).Perm ["X", "Y"] :=
  ⟨by decide, by decide,
    (claim_C1_amended.1 [⟨"X", ">10", ""⟩] ["X", "Y"]
      [⟨"X", 100⟩, ⟨"Y", 0⟩] ["Y"] (by decide) (by decide)).1⟩

/-- Claim C8 counterexample: with remote ids `["A", "A"]` and one local row
of code "A", the final offer-id list is `["A"]` — yet "A" IS matched by a
local row's code, so the final collection is not "exactly the input ids
matched by no local row's code" (which would be the empty list). -/
theorem claim_C8_counterexample :
    Seller.create_stocks [⟨"A", ">10", ""⟩] ["A", "A"] =
      some ([⟨"A", 100⟩, ⟨"A", 0⟩], ["A"]) ∧
    (["A", "A"] : List String).filter
      (fun id => id ∉ ([⟨"A", ">10", ""⟩] : List Watch).map Watch.kod) = [] := by
  constructor <;> decide

/-- Claim C8 (amended): for a DUPLICATE-FREE remote offer-id list R, when
`create_stocks` returns, the mutated offer-id collection holds exactly the
ids of R matched by no local row's code, in their original order (each
matched id has been removed once; nothing else is added or removed).  Both
marketplace variants satisfy this. -/
theorem claim_C8_amended :
    (∀ (L : List Watch) (R : List String) (s : List Seller.StockRecord) (rem : List String),
      R.Nodup → Seller.create_stocks L R = some (s, rem) →
      rem = R.filter (fun id => id ∉ L.map Watch.kod)) ∧
    (∀ (L : List Watch) (R : List String) (wh date : String)
        (s : List Market.StockRecord) (rem : List String),
      R.Nodup → Market.create_stocks L R wh date = some (s, rem) →
      rem = R.filter (fun id => id ∉ L.map Watch.kod)) := by
  constructor
  · intro L R s rem hnd h
    unfold Seller.create_stocks at h
    rw [Option.map_eq_some'] at h
    obtain ⟨⟨ps, rem0⟩, hrec, hmk⟩ := h
    obtain ⟨hs, hrem⟩ := (Prod.mk.injEq ..).mp hmk
    subst hrem
    exact reconLoop_rem_filter L R hnd ps rem0 hrec
  · intro L R wh date s rem hnd h
    unfold Market.create_stocks at h
    rw [Option.map_eq_some'] at h
    obtain ⟨⟨ps, rem0⟩, hrec, hmk⟩ := h
    obtain ⟨hs, hrem⟩ := (Prod.mk.injEq ..).mp hmk
    subst hrem
    exact reconLoop_rem_filter L R hnd ps rem0 hrec

/-- Witness for the amended Claim C8: id "Y" is matched by no row, id "X" is
matched and removed. -/
theorem claim_C8_amended_witness :
    (["X", "Y"] : List String).Nodup ∧
    (["Y"] : List String) =
      (["X", "Y"] : List String).filter
        (fun id => id ∉ ([⟨"X", "1", ""⟩] : List Watch).map Watch.kod) :=
  ⟨by decide,
    claim_C8_amended.1 [⟨"X", "1", ""⟩] ["X", "Y"] [⟨"X", 0⟩, ⟨"Y", 0⟩] ["Y"]
      (by decide) (by decide)⟩

/-- Claim C10: `upload_stocks` returns a pair whose second component is the
full reconciled stock list (the `create_stocks` output) and whose first
component is exactly the sublist of the second with nonzero resolved
quantity, in the same relative order.  Both marketplace variants satisfy
this (the Yandex variant reads the quantity from `items[0].count`). -/
theorem claim_C10_upload_pair :
    (∀ (L : List Watch) (R : List String) (nz st : List Seller.StockRecord),
      Seller.upload_stocks L R = some (nz, st) →
      (∃ rem, Seller.create_stocks L R = some (st, rem)) ∧
      nz.Sublist st ∧
      (∀ r, r ∈ nz ↔ r ∈ st ∧ r.stock ≠ 0) ∧
      (∀ r : Seller.StockRecord, r.stock ≠ 0 → nz.count r = st.count r)) ∧
    (∀ (L : List Watch) (R : List String) (wh date : String)
        (nz st : List Market.StockRecord),
      Market.upload_stocks L R wh date = some (nz, st) →
      (∃ rem, Market.create_stocks L R wh date = some (st, rem)) ∧
      nz.Sublist st ∧
      (∀ r, r ∈ nz ↔ r ∈ st ∧ (r.items.headD ⟨0, "", ""⟩).count ≠ 0) ∧
      (∀ r : Market.StockRecord, (r.items.headD ⟨0, "", ""⟩).count ≠ 0 →
        nz.count r = st.count r)) := by
  constructor
  · intro L R nz st h
    unfold Seller.upload_stocks at h
    rw [Option.map_eq_some'] at h
    obtain ⟨⟨s0, rem0⟩, hrec, hmk⟩ := h
    obtain ⟨hnz, hst⟩ := (Prod.mk.injEq ..).mp hmk
    subst hst
    subst hnz
    refine ⟨⟨rem0, hrec⟩, List.filter_sublist s0, ?_, ?_⟩
    · intro r
      constructor
      · intro hr
        have := List.mem_filter.mp hr
        simpa using this
      · intro hr
        exact List.mem_filter.mpr ⟨hr.1, by simpa using hr.2⟩
    · intro r hr
      exact List.count_filter (by simpa using hr)
  · intro L R wh date nz st h
    unfold Market.upload_stocks at h
    rw [Option.map_eq_some'] at h
    obtain ⟨⟨s0, rem0⟩, hrec, hmk⟩ := h
    obtain ⟨hnz, hst⟩ := (Prod.mk.injEq ..).mp hmk
    subst hst
    subst hnz
    refine ⟨⟨rem0, hrec⟩, List.filter_sublist s0, ?_, ?_⟩
    · intro r
      constructor
      · intro hr
        have := List.mem_filter.mp hr
        simpa using this
      · intro hr
        exact List.mem_filter.mpr ⟨hr.1, by simpa using hr.2⟩
    · intro r hr
      exact List.count_filter (by simpa using hr)

/-- Witness for Claim C10: matched row with quantity 100, zero-filled id
"B". -/
theorem claim_C10_upload_pair_witness :
    Seller.upload_stocks [⟨"A", ">10", ""⟩] ["A", "B"] =
      some ([⟨"A", 100⟩], [⟨"A", 100⟩, ⟨"B", 0⟩]) ∧
    ([⟨"A", 100⟩] : List Seller.StockRecord).Sublist [⟨"A", 100⟩, ⟨"B", 0⟩] :=
  ⟨by decide,
    (claim_C10_upload_pair.1 [⟨"A", ">10", ""⟩] ["A", "B"]
      [⟨"A", 100⟩] [⟨"A", 100⟩, ⟨"B", 0⟩] (by decide)).2.1⟩

theorem ozonLoop_run (srv : String → Seller.OzonPage) :
    ∀ (k : Nat) (s : String × List Seller.Product) (fuel : Nat), k + 1 ≤ fuel →
      (∀ j < k, ¬ Seller.stopsAt srv (Seller.pageIter srv s j)) →
      Seller.stopsAt srv (Seller.pageIter srv s k) →
      Seller.offerLoop srv fuel s.1 s.2 = some (Seller.pageIter srv s (k + 1)).2 := by
  intro k
  induction k with
  | zero =>
    intro s fuel hf hlt hstop
    cases fuel with
    | zero => omega
    | succ f =>
      simp only [Seller.pageIter] at hstop
      unfold Seller.stopsAt at hstop
      simp only [Seller.offerLoop]
      rw [if_pos hstop]
      rfl
  | succ k ih =>
    intro s fuel hf hlt hstop
    cases fuel with
    | zero => omega
    | succ f =>
      have h0 : ¬ Seller.stopsAt srv s := by
        have h00 := hlt 0 (Nat.succ_pos k)
        simpa only [Seller.pageIter] using h00
      unfold Seller.stopsAt at h0
      simp only [Seller.offerLoop]
      rw [if_neg h0]
      have hrec := ih (Seller.pageStep srv s) f (by omega)
        (fun j hj => by
          have hj1 := hlt (j + 1) (by omega)
          simpa only [Seller.pageIter] using hj1)
        (by simpa only [Seller.pageIter] using hstop)
      simpa only [Seller.pageIter] using hrec

theorem marketLoop_run (srv : String → Market.MarketPage) :
    ∀ (k : Nat) (s : String × List Market.Entry) (fuel : Nat), k + 1 ≤ fuel →
      (∀ j < k, ¬ Market.stopsAt srv (Market.pageIter srv s j)) →
      Market.stopsAt srv (Market.pageIter srv s k) →
      Market.offerLoop srv fuel s.1 s.2 = some (Market.pageIter srv s (k + 1)).2 := by
  intro k
  induction k with
  | zero =>
    intro s fuel hf hlt hstop
    cases fuel with
    | zero => omega
    | succ f =>
      simp only [Market.pageIter] at hstop
      unfold Market.stopsAt at hstop
      simp only [Market.offerLoop]
      rcases hstop with htok | htok
      · rw [htok]
        rfl
      · rw [htok]
        simp only [if_pos rfl]
        rfl
  | succ k ih =>
    intro s fuel hf hlt hstop
    cases fuel with
    | zero => omega
    | succ f =>
      have h0 : ¬ Market.stopsAt srv s := by
        have h00 := hlt 0 (Nat.succ_pos k)
        simpa only [Market.pageIter] using h00
      unfold Market.stopsAt at h0
      simp only [Market.offerLoop]
      cases htok : (srv s.1).nextPageToken with
      | none => exact absurd (Or.inl htok) h0
      | some tk =>
        have htk : ¬ tk = "" := by
          intro hc
          exact h0 (Or.inr (by rw [htok, hc]))
        show (if tk = "" then some (s.2 ++ (srv s.1).offerMappingEntries)
            else Market.offerLoop srv f tk (s.2 ++ (srv s.1).offerMappingEntries)) =
          some (Market.pageIter srv s (k + 1 + 1)).2
        rw [if_neg htk]
        have hrec := ih (Market.pageStep srv s) f (by omega)
          (fun j hj => by
            have hj1 := hlt (j + 1) (by omega)
            simpa only [Market.pageIter] using hj1)
          (by simpa only [Market.pageIter] using hstop)
        have hstep1 : (Market.pageStep srv s).1 = tk := by
          simp [Market.pageStep, htok]
        rw [hstep1] at hrec
        simpa only [Market.pageIter] using hrec

/-- Claim C9: each remote-offer listing loop terminates under its stop
condition and returns every extracted offer identifier in the order
received.  For the Ozon-style `get_offer_ids`, if the break condition "the
reported total equals the accumulated item count" holds first after page
`k`, the loop returns (for any fuel bound covering `k + 1` requests) the
concatenated items of pages `0..k` mapped to their `offer_id`s.  For the
Yandex-style `get_offer_ids`, with the break condition "the next page token
is absent or empty", it likewise returns the concatenated entries mapped to
their `shopSku`s. -/
theorem claim_C9_pagination :
    (∀ (srv : String → Seller.OzonPage) (k fuel : Nat), k + 1 ≤ fuel →
      (∀ j < k, ¬ Seller.stopsAt srv (Seller.pageIter srv ("", []) j)) →
      Seller.stopsAt srv (Seller.pageIter srv ("", []) k) →
      Seller.get_offer_ids srv fuel =
        some ((Seller.pageIter srv ("", []) (k + 1)).2.map Seller.Product.offer_id)) ∧
    (∀ (srv : String → Market.MarketPage) (k fuel : Nat), k + 1 ≤ fuel →
      (∀ j < k, ¬ Market.stopsAt srv (Market.pageIter srv ("", []) j)) →
      Market.stopsAt srv (Market.pageIter srv ("", []) k) →
      Market.get_offer_ids srv fuel =
        some ((Market.pageIter srv ("", []) (k + 1)).2.map Market.Entry.shopSku)) := by
  constructor
  · intro srv k fuel hf hlt hstop
    unfold Seller.get_offer_ids
    rw [ozonLoop_run srv k ("", []) fuel hf hlt hstop]
    rfl
  · intro srv k fuel hf hlt hstop
    unfold Market.get_offer_ids
    rw [marketLoop_run srv k ("", []) fuel hf hlt hstop]
    rfl

/-- A two-page Ozon-style paginator: total 3, so the loop must continue
after the first page (2 items) and break after the second (3 items). -/
def ozonTestSrv : String → Seller.OzonPage :=
  fun t => if t = "" then ⟨[⟨"a"⟩, ⟨"b"⟩], 3, "T"⟩ else ⟨[⟨"c"⟩], 3, "U"⟩

/-- A two-page Yandex-style paginator: first page carries next token "N",
second page carries the empty next token. -/
def marketTestSrv : String → Market.MarketPage :=
  fun t => if t = "" then ⟨[⟨"x"⟩], some "N"⟩ else ⟨[⟨"y"⟩], some ""⟩

/-- Witness for Claim C9, on concrete two-page paginators. -/
theorem claim_C9_pagination_witness :
    (∀ j < 1, ¬ Seller.stopsAt ozonTestSrv (Seller.pageIter ozonTestSrv ("", []) j)) ∧
    Seller.stopsAt ozonTestSrv (Seller.pageIter ozonTestSrv ("", []) 1) ∧
    Seller.get_offer_ids ozonTestSrv 2 = some ["a", "b", "c"] ∧
    (∀ j < 1, ¬ Market.stopsAt marketTestSrv (Market.pageIter marketTestSrv ("", []) j)) ∧
    Market.stopsAt marketTestSrv (Market.pageIter marketTestSrv ("", []) 1) ∧
    Market.get_offer_ids marketTestSrv 2 = some ["x", "y"] :=
  ⟨by decide, by decide,
    by
      have h := claim_C9_pagination.1 ozonTestSrv 1 2 (by omega) (by decide) (by decide)
      exact h.trans (by decide),
    by decide, by decide,
    by
      have h := claim_C9_pagination.2 marketTestSrv 1 2 (by omega) (by decide) (by decide)
      exact h.trans (by decide)⟩
